import Mathlib

/-!
Verification development for `verl/workers/rollout/sglang_rollout/log_manager.py`.

Python strings are modelled as `List Char` (`PyStr`); Python dicts as ordered
association lists with Python's insertion semantics (updating an existing key
keeps its position, a new key is appended at the end); the filesystem and the
set of OS-level file handles as an explicit `OSState`; module-level globals
(`_current_step`, `_current_rank`, the `_log_manager` singleton) as explicit
state records threaded through the functions that read or write them.
JSON values are modelled by the inductive `JVal`; `json.dumps` emits one line
per record, so a file's content is modelled as the list of records written
to it, in order.
-/

/-- Python `str`, modelled as its list of characters. -/
abbrev PyStr := List Char

/-- Embed a Lean string literal as a `PyStr`. -/
def strLit (s : String) : PyStr := s.data

/-- The character for a decimal digit `d` (`0 ≤ d < 10`), as Python formats it. -/
def digitChar (d : Nat) : Char := Char.ofNat (48 + d)

/-- Decimal representation of a natural number, most significant digit first,
with explicit fuel so that the kernel can evaluate it. -/
def natReprAux : Nat → Nat → List Char
  | 0, _ => []
  | fuel + 1, n =>
    if n < 10 then [digitChar n]
    else natReprAux fuel (n / 10) ++ [digitChar (n % 10)]

/-- Decimal representation of a natural number (Python `str(n)` for `n ≥ 0`). -/
def natRepr (n : Nat) : List Char := natReprAux (n + 1) n

/-- Python `str(i)` for an integer: decimal digits, with a leading `-` when
negative.  This models the f-string interpolation `f"step_\x7bstep\x7d"` etc. -/
def intRepr : Int → List Char
  | Int.ofNat n => natRepr n
  | Int.negSucc n => '-' :: natRepr (n + 1)

/-- Evaluate a digit string back to the number it denotes. -/
def evalDigits (l : List Char) : Nat := l.foldl (fun a c => a * 10 + (c.toNat - 48)) 0

/-- Does the string start with `'/'`? (`b.startswith(sep)` in `posixpath.join`.) -/
def startsWithSlash : PyStr → Bool
  | [] => false
  | c :: _ => c = '/'

/-- Does the string end with `'/'`? (`path.endswith(sep)` in `posixpath.join`.) -/
def endsWithSlash : PyStr → Bool
  | [] => false
  | [c] => c = '/'
  | _ :: c :: rest => endsWithSlash (c :: rest)

/-- Python `os.path.join(a, b)` on POSIX: if `b` is absolute it replaces `a`;
otherwise it is appended, inserting `'/'` unless `a` is empty or ends in `'/'`. -/
def pyJoin2 (a b : PyStr) : PyStr :=
  if startsWithSlash b then b
  else if a = [] ∨ endsWithSlash a then a ++ b
  else a ++ '/' :: b

/-- `os.getenv(var, default)`: the variable's value when it is set, else the default. -/
def getenvD (v : Option PyStr) (d : PyStr) : PyStr := v.getD d

/-- The process environment, restricted to the two variables the module reads. -/
structure Env where
  sglang_profile_log_root : Option PyStr
  experiment_name : Option PyStr

/-- `get_sglang_log_dir()`: `SGLANG_PROFILE_LOG_ROOT/<name>` when the root
variable is set nonempty, else `logs/<name>`, with `<name>` defaulting to
`multiturn_log_dir`. -/
def get_sglang_log_dir (env : Env) : PyStr :=
  let root := getenvD env.sglang_profile_log_root []
  let name := getenvD env.experiment_name (strLit "multiturn_log_dir")
  if root ≠ [] then pyJoin2 root name
  else pyJoin2 (strLit "logs") name

/-- The module-level mutable globals `_current_step` and `_current_rank`. -/
structure PyGlobals where
  current_step : Int
  current_rank : Int
deriving DecidableEq, Repr

/-- `set_sglang_rollout_step(step)`. -/
def set_sglang_rollout_step (g : PyGlobals) (step : Int) : PyGlobals :=
  { g with current_step := step }

/-- `set_sglang_rollout_rank(rank)`. -/
def set_sglang_rollout_rank (g : PyGlobals) (rank : Int) : PyGlobals :=
  { g with current_rank := rank }

/-- `build_profile_log_path(log_dir, step, rank)`:
`os.path.join(log_dir, f"step_\x7bstep\x7d", f"worker_\x7brank\x7d.jsonl")`. -/
def build_profile_log_path (log_dir : PyStr) (step rank : Int) : PyStr :=
  pyJoin2 (pyJoin2 log_dir (strLit "step_" ++ intRepr step))
    (strLit "worker_" ++ intRepr rank ++ strLit ".jsonl")

/-- `get_sglang_log_path(step, rank, log_dir)`: fill omitted arguments from the
globals / `get_sglang_log_dir()` and delegate to `build_profile_log_path`. -/
def get_sglang_log_path (env : Env) (g : PyGlobals)
    (step rank : Option Int) (log_dir : Option PyStr) : PyStr :=
  let step_val := step.getD g.current_step
  let rank_val := rank.getD g.current_rank
  let base := log_dir.getD (get_sglang_log_dir env)
  build_profile_log_path base step_val rank_val

/-- `get_sglang_log_path` as a state transformer over the module globals: the
body only reads `_current_step` / `_current_rank`, it assigns no global. -/
def get_sglang_log_path_run (env : Env) (g : PyGlobals)
    (step rank : Option Int) (log_dir : Option PyStr) : PyStr × PyGlobals :=
  (get_sglang_log_path env g step rank log_dir, g)

/-- The directory part contributed by `log_dir` after the first `os.path.join`:
`log_dir` itself when it is empty or already ends in `'/'`, else `log_dir ++ "/"`. -/
def dirLead (d : PyStr) : PyStr := if d = [] ∨ endsWithSlash d then d else d ++ ['/']

/-- A JSON-serializable Python value, as far as this module passes them around:
strings, ints, floats (modelled exactly as rationals — the logger never
computes with them, it only forwards them), and nested dicts (`extra`). -/
inductive JVal where
  | jstr : PyStr → JVal
  | jint : Int → JVal
  | jnum : Rat → JVal
  | jdict : List (PyStr × JVal) → JVal

instance : Inhabited JVal := ⟨JVal.jint 0⟩

/-- A Python dict with string keys, as its insertion-ordered entry list. -/
abbrev Dict := List (PyStr × JVal)

/-- `d[k]` lookup (`None` when absent): first entry with key `k`. -/
def dictGet? (d : Dict) (k : PyStr) : Option JVal :=
  (d.find? (fun p => p.1 = k)).map (·.2)

/-- `d[k] = v` assignment with Python semantics: an existing key keeps its
position and gets the new value; a new key is appended at the end. -/
def dictSet (d : Dict) (k : PyStr) (v : JVal) : Dict :=
  if d.any (fun p => p.1 = k) then d.map (fun p => if p.1 = k then (k, v) else p)
  else d ++ [(k, v)]

/-- The keys of a dict, in insertion order (Python iteration order). -/
def dictKeys (d : Dict) : List PyStr := d.map (·.1)

/-- The arguments of one `SGLangLogManager.log` call (besides the path):
`event`, the optional named parameters, and the `**extra_keys` keyword
arguments in call order.  Python guarantees keyword-argument keys distinct. -/
structure LogArgs where
  event : PyStr
  duration : Option Rat
  extra : Option (List (PyStr × JVal))
  workid : Option Int
  step : Option Int
  extra_keys : List (PyStr × JVal)

/-- The `log_entry` dict built by `SGLangLogManager.log` before reordering:
the four-field literal, then the conditional `duration_sec` / `extra`
assignments, then the `extra_keys` assignments in order.  `now` is the value
of `datetime.now().isoformat()` at the call. -/
def build_log_entry (now : PyStr) (cur_step cur_rank : Int) (a : LogArgs) : Dict :=
  let step_val := a.step.getD cur_step
  let worker_val := a.workid.getD cur_rank
  let e0 : Dict := [(strLit "timestamp", JVal.jstr now), (strLit "step", JVal.jint step_val),
    (strLit "worker", JVal.jint worker_val), (strLit "event", JVal.jstr a.event)]
  let e1 := match a.duration with
    | some dur => dictSet e0 (strLit "duration_sec") (JVal.jnum dur)
    | none => e0
  let e2 := match a.extra with
    | some x => dictSet e1 (strLit "extra") (JVal.jdict x)
    | none => e1
  a.extra_keys.foldl (fun d kv => dictSet d kv.1 kv.2) e2

/-- The literal key list `["timestamp", "step", "worker", "event", "duration_sec"]`. -/
def reservedKeys : List PyStr :=
  [strLit "timestamp", strLit "step", strLit "worker", strLit "event", strLit "duration_sec"]

/-- `ordered_keys`: the reserved prefix followed by the non-reserved keys of
`log_entry` in insertion order. -/
def ordered_keys (entry : Dict) : List PyStr :=
  reservedKeys ++ (dictKeys entry).filter (fun k => decide (k ∉ reservedKeys))

/-- `ordered_entry`: the dict comprehension keeping, for each ordered key
present in `log_entry`, its `log_entry` value. -/
def ordered_entry (entry : Dict) : Dict :=
  (ordered_keys entry).filterMap (fun k => (dictGet? entry k).map (fun v => (k, v)))

/-- The arguments of the spec's scenario call
`log(path, "turn_start", duration=0.5, tool="search")`. -/
def scenarioArgs : LogArgs :=
  ⟨strLit "turn_start", some (1/2), none, none, none,
    [(strLit "tool", JVal.jstr (strLit "search"))]⟩

/-- The record `SGLangLogManager.log` serializes and writes as one line. -/
def logRecord (now : PyStr) (cur_step cur_rank : Int) (a : LogArgs) : Dict :=
  ordered_entry (build_log_entry now cur_step cur_rank a)

/-- The state of one OS-level file handle: the path it writes to and whether
it is still open. -/
structure HState where
  hpath : PyStr
  isOpen : Bool
deriving DecidableEq, Repr

/-- The parts of the operating system the module touches: file contents (a
file is the list of records written to it, one per line), the table of file
handles, and a fresh-handle counter. -/
structure OSState where
  files : List (PyStr × List Dict)
  handles : List (Nat × HState)
  nextH : Nat

/-- The lines of the file at `p` (a missing file reads as empty). -/
def fileLines (os : OSState) (p : PyStr) : List Dict :=
  ((os.files.find? (fun q => q.1 = p)).map (·.2)).getD []

/-- `open(log_path, "a", buffering=1)`: create the file if absent and register
a fresh open handle on it.  The preceding `os.makedirs(..., exist_ok=True)` is
a no-op in the model, where directory creation cannot fail. -/
def osOpen (os : OSState) (p : PyStr) : Nat × OSState :=
  (os.nextH,
    { files := if os.files.any (fun q => q.1 = p) then os.files else os.files ++ [(p, [])]
      handles := os.handles ++ [(os.nextH, ⟨p, true⟩)]
      nextH := os.nextH + 1 })

/-- `handle.write(line)`: raises (`ValueError`) on a closed or unknown handle,
otherwise appends one line to the handle's file. -/
def osWrite (os : OSState) (h : Nat) (rec : Dict) : Except Unit OSState :=
  match (os.handles.find? (fun e => e.1 = h)).map (·.2) with
  | none => Except.error ()
  | some hs =>
    if hs.isOpen then
      Except.ok { os with
        files := os.files.map (fun q => if q.1 = hs.hpath then (q.1, q.2 ++ [rec]) else q) }
    else Except.error ()

/-- The effect of one successful `handle.write(line)` on the OS state:
the handle's file gains one line. -/
def writeRec (os : OSState) (p : PyStr) (rec : Dict) : OSState :=
  { os with files := os.files.map (fun q => if q.1 = p then (q.1, q.2 ++ [rec]) else q) }

/-- `handle.close()`: mark the handle closed.  Closing an already-closed
Python file is a no-op, so this never fails. -/
def osClose (os : OSState) (h : Nat) : OSState :=
  { os with handles := os.handles.map (fun e => if e.1 = h then (e.1, ⟨e.2.hpath, false⟩) else e) }

/-- `SGLangLogManager`: `self.file_handles`, the cache mapping each path to
the OS handle opened for it, in insertion order. -/
structure SGLangLogManager where
  file_handles : List (PyStr × Nat)

/-- `SGLangLogManager.get_handle`: return the cached handle, opening the file
and caching the new handle first when the path is not yet cached. -/
def SGLangLogManager.get_handle (m : SGLangLogManager) (os : OSState) (log_path : PyStr) :
    Nat × SGLangLogManager × OSState :=
  match (m.file_handles.find? (fun q => q.1 = log_path)).map (·.2) with
  | some h => (h, m, os)
  | none =>
    let ho := osOpen os log_path
    (ho.1, ⟨m.file_handles ++ [(log_path, ho.1)]⟩, ho.2)

/-- `SGLangLogManager.log`: get the handle for the path, build the reordered
record, write it as one line and flush.  `now` is `datetime.now().isoformat()`
at this call; a failed write propagates. -/
def SGLangLogManager.log (m : SGLangLogManager) (os : OSState) (g : PyGlobals)
    (log_path : PyStr) (now : PyStr) (a : LogArgs) :
    Except Unit (SGLangLogManager × OSState) :=
  let hmo := m.get_handle os log_path
  match osWrite hmo.2.2 hmo.1 (logRecord now g.current_step g.current_rank a) with
  | Except.ok os' => Except.ok (hmo.2.1, os')
  | Except.error e => Except.error e

/-- `SGLangLogManager.close_all`: close every handle in the cache.  The cache
itself is not modified. -/
def SGLangLogManager.close_all (m : SGLangLogManager) (os : OSState) :
    SGLangLogManager × OSState :=
  (m, m.file_handles.foldl (fun o q => osClose o q.2) os)

/-- A sequence of `log` calls to one path on one manager, each with its own
clock value and arguments; stops at the first error. -/
def runLogs (g : PyGlobals) (log_path : PyStr) :
    List (PyStr × LogArgs) → SGLangLogManager → OSState →
      Except Unit (SGLangLogManager × OSState)
  | [], m, os => Except.ok (m, os)
  | c :: rest, m, os =>
    match SGLangLogManager.log m os g log_path c.1 c.2 with
    | Except.ok r => runLogs g log_path rest r.1 r.2
    | Except.error e => Except.error e

/-- The module-level singleton slot `_log_manager`, a supply of fresh instance
identities, and the list of instances whose `close_all` has been registered
with `atexit` (registration happens in `SGLangLogManager.__init__`). -/
structure SingletonState where
  log_manager : Option Nat
  next_id : Nat
  atexit_regs : List Nat
deriving DecidableEq, Repr

/-- `get_sglang_log_manager()`: construct the instance on first call (which
registers its `close_all` with `atexit`), return the cached instance on every
later call. -/
def get_sglang_log_manager (s : SingletonState) : Nat × SingletonState :=
  match s.log_manager with
  | some r => (r, s)
  | none =>
    (s.next_id,
      { log_manager := some s.next_id, next_id := s.next_id + 1,
        atexit_regs := s.atexit_regs ++ [s.next_id] })

theorem natReprAux_irrel : ∀ f g n, n < f → n < g → natReprAux f n = natReprAux g n := by
  intro f
  induction f with
  | zero => intro g n hf _; omega
  | succ f ih =>
    intro g n hf hg
    cases g with
    | zero => omega
    | succ g =>
      simp only [natReprAux]
      by_cases h10 : n < 10
      · simp [h10]
      · have hn : 10 ≤ n := by omega
        have hdiv : n / 10 < n := Nat.div_lt_self (by omega) (by omega)
        have h1 : n / 10 < f := by omega
        have h2 : n / 10 < g := by omega
        simp only [h10, if_false]
        rw [ih g (n / 10) h1 h2]

/-- Unfolding equation for `natRepr`. -/
theorem natRepr_eq (n : Nat) :
    natRepr n = if n < 10 then [digitChar n] else natRepr (n / 10) ++ [digitChar (n % 10)] := by
  by_cases h : n < 10
  · simp [natRepr, natReprAux, h]
  · have hn : 10 ≤ n := by omega
    have hdiv : n / 10 < n := Nat.div_lt_self (by omega) (by omega)
    simp only [natRepr, natReprAux, h, if_false]
    rw [natReprAux_irrel n (n / 10 + 1) (n / 10) hdiv (Nat.lt_succ_self _)]
    simp only [natReprAux]

theorem digitChar_toNat {d : Nat} (h : d < 10) : (digitChar d).toNat = 48 + d := by
  interval_cases d <;> decide

theorem evalDigits_snoc (l : List Char) (c : Char) :
    evalDigits (l ++ [c]) = evalDigits l * 10 + (c.toNat - 48) := by
  simp [evalDigits, List.foldl_append]

theorem evalDigits_natRepr (n : Nat) : evalDigits (natRepr n) = n := by
  induction n using Nat.strong_induction_on with
  | _ n ih =>
    rw [natRepr_eq]
    by_cases h : n < 10
    · simp [h, evalDigits, digitChar_toNat h]
    · have hn : 10 ≤ n := by omega
      have hdiv : n / 10 < n := Nat.div_lt_self (by omega) (by omega)
      simp only [h, if_false]
      rw [evalDigits_snoc, ih (n / 10) hdiv, digitChar_toNat (Nat.mod_lt n (by omega))]
      omega

theorem natRepr_injective {m n : Nat} (h : natRepr m = natRepr n) : m = n := by
  have := evalDigits_natRepr m
  rw [h, evalDigits_natRepr] at this
  omega

theorem natRepr_mem_digit {n : Nat} {c : Char} (h : c ∈ natRepr n) :
    48 ≤ c.toNat ∧ c.toNat ≤ 57 := by
  induction n using Nat.strong_induction_on with
  | _ n ih =>
    rw [natRepr_eq] at h
    by_cases h10 : n < 10
    · simp only [h10, if_true, List.mem_singleton] at h
      subst h
      rw [digitChar_toNat h10]
      omega
    · have hn : 10 ≤ n := by omega
      have hdiv : n / 10 < n := Nat.div_lt_self (by omega) (by omega)
      simp only [h10, if_false, List.mem_append, List.mem_singleton] at h
      rcases h with h | h
      · exact ih (n / 10) hdiv h
      · subst h
        rw [digitChar_toNat (Nat.mod_lt n (by omega))]
        omega

theorem natRepr_ne_nil (n : Nat) : natRepr n ≠ [] := by
  rw [natRepr_eq]
  by_cases h : n < 10 <;> simp [h]

theorem intRepr_mem {i : Int} {c : Char} (h : c ∈ intRepr i) :
    c.toNat = 45 ∨ (48 ≤ c.toNat ∧ c.toNat ≤ 57) := by
  cases i with
  | ofNat n => exact Or.inr (natRepr_mem_digit h)
  | negSucc n =>
    simp only [intRepr, List.mem_cons] at h
    rcases h with h | h
    · subst h; exact Or.inl rfl
    · exact Or.inr (natRepr_mem_digit h)

theorem slash_not_mem_intRepr (i : Int) : '/' ∉ intRepr i := by
  intro h
  have h1 := intRepr_mem h
  have h2 : ('/' : Char).toNat = 47 := by decide
  omega

theorem dot_not_mem_intRepr (i : Int) : '.' ∉ intRepr i := by
  intro h
  have h1 := intRepr_mem h
  have h2 : ('.' : Char).toNat = 46 := by decide
  omega

theorem intRepr_injective {i j : Int} (h : intRepr i = intRepr j) : i = j := by
  cases i with
  | ofNat m =>
    cases j with
    | ofNat n => exact congrArg Int.ofNat (natRepr_injective h)
    | negSucc n =>
      exfalso
      simp only [intRepr] at h
      have hm : '-' ∈ natRepr m := by rw [h]; exact List.mem_cons_self _ _
      have h1 := natRepr_mem_digit hm
      have h2 : ('-' : Char).toNat = 45 := by decide
      omega
  | negSucc m =>
    cases j with
    | ofNat n =>
      exfalso
      simp only [intRepr] at h
      have hn : '-' ∈ natRepr n := by rw [← h]; exact List.mem_cons_self _ _
      have h1 := natRepr_mem_digit hn
      have h2 : ('-' : Char).toNat = 45 := by decide
      omega
    | negSucc n =>
      simp only [intRepr, List.cons.injEq, true_and] at h
      have := natRepr_injective h
      exact congrArg Int.negSucc (by omega)

theorem intRepr_ends_digit (i : Int) :
    ∃ l c, intRepr i = l ++ [c] ∧ 48 ≤ c.toNat ∧ c.toNat ≤ 57 := by
  have hnat : ∀ n : Nat, ∃ l c, natRepr n = l ++ [c] ∧ 48 ≤ c.toNat ∧ c.toNat ≤ 57 := by
    intro n
    rw [natRepr_eq]
    by_cases h : n < 10
    · refine ⟨[], digitChar n, by simp [h], ?_⟩
      rw [digitChar_toNat h]
      omega
    · refine ⟨natRepr (n / 10), digitChar (n % 10), by simp [h], ?_⟩
      rw [digitChar_toNat (Nat.mod_lt n (by omega))]
      omega
  cases i with
  | ofNat n => exact hnat n
  | negSucc n =>
    obtain ⟨l, c, hl, hc⟩ := hnat (n + 1)
    exact ⟨'-' :: l, c, by simp [intRepr, hl], hc⟩

theorem endsWithSlash_append_singleton (l : List Char) (c : Char) :
    endsWithSlash (l ++ [c]) = decide (c = '/') := by
  induction l with
  | nil => simp [endsWithSlash]
  | cons a l ih =>
    cases l with
    | nil => simp [endsWithSlash]
    | cons b l => simpa [endsWithSlash] using ih

theorem pyJoin2_not_slash (a b : PyStr) (hb : startsWithSlash b = false) :
    pyJoin2 a b = dirLead a ++ b := by
  by_cases h : a = [] ∨ endsWithSlash a
  · simp [pyJoin2, dirLead, hb, h]
  · simp [pyJoin2, dirLead, hb, h]

theorem endsWithSlash_dirLead_step (d : PyStr) (s : Int) :
    endsWithSlash (dirLead d ++ (strLit "step_" ++ intRepr s)) = false ∧
      dirLead d ++ (strLit "step_" ++ intRepr s) ≠ [] := by
  obtain ⟨l, c, hrep, hc1, hc2⟩ := intRepr_ends_digit s
  have heq : dirLead d ++ (strLit "step_" ++ intRepr s)
      = (dirLead d ++ strLit "step_" ++ l) ++ [c] := by
    rw [hrep]; simp
  constructor
  · rw [heq, endsWithSlash_append_singleton]
    have h47 : ('/' : Char).toNat = 47 := by decide
    simp only [decide_eq_false_iff_not]
    intro hcontra
    rw [hcontra] at hc1
    omega
  · rw [heq]; simp

/-- Normal form of `build_profile_log_path`: a directory part depending only on
`log_dir`, then `step_<step>/worker_<rank>.jsonl`. -/
theorem build_profile_log_path_eq (d : PyStr) (s r : Int) :
    build_profile_log_path d s r =
      dirLead d ++ (strLit "step_" ++ (intRepr s ++
        ('/' :: (strLit "worker_" ++ (intRepr r ++ strLit ".jsonl"))))) := by
  have h1 : startsWithSlash (strLit "step_" ++ intRepr s) = false := rfl
  have h2 : startsWithSlash (strLit "worker_" ++ intRepr r ++ strLit ".jsonl") = false := rfl
  obtain ⟨hslash, hne⟩ := endsWithSlash_dirLead_step d s
  unfold build_profile_log_path
  rw [pyJoin2_not_slash _ _ h1]
  unfold pyJoin2
  rw [h2]
  simp only [Bool.false_eq_true, if_false, hslash, hne, false_or, or_self]
  simp

/-- Splitting at the first occurrence of a character absent from both left parts. -/
theorem append_cons_eq_of_not_mem {c : Char} :
    ∀ {a a' b b' : List Char}, c ∉ a → c ∉ a' →
      a ++ c :: b = a' ++ c :: b' → a = a' ∧ b = b' := by
  intro a
  induction a with
  | nil =>
    intro a' b b' _ ha' h
    cases a' with
    | nil => simpa using h
    | cons x a2 =>
      exfalso
      simp only [List.nil_append, List.cons_append, List.cons.injEq] at h
      exact ha' (h.1 ▸ List.mem_cons_self _ _)
  | cons x a2 ih =>
    intro a' b b' ha ha' h
    cases a' with
    | nil =>
      exfalso
      simp only [List.cons_append, List.nil_append, List.cons.injEq] at h
      exact ha (h.1 ▸ List.mem_cons_self _ _)
    | cons y a2' =>
      simp only [List.cons_append, List.cons.injEq] at h
      obtain ⟨hxy, hrest⟩ := h
      have hmem : c ∉ a2 := fun hm => ha (List.mem_cons_of_mem _ hm)
      have hmem' : c ∉ a2' := fun hm => ha' (List.mem_cons_of_mem _ hm)
      obtain ⟨he1, he2⟩ := ih hmem hmem' hrest
      exact ⟨by rw [hxy, he1], he2⟩

theorem find?_map_of_pred {α : Type} (f : α → α) (p : α → Bool)
    (hp : ∀ a, p (f a) = p a) : ∀ l : List α, (l.map f).find? p = (l.find? p).map f := by
  intro l
  induction l with
  | nil => rfl
  | cons a l ih =>
    simp only [List.map_cons, List.find?]
    rw [hp a]
    cases hpa : p a
    · simpa [hpa] using ih
    · simp [hpa]

theorem dictKeys_cons (p : PyStr × JVal) (d : Dict) : dictKeys (p :: d) = p.1 :: dictKeys d := rfl

theorem mem_dictKeys {d : Dict} {k : PyStr} : k ∈ dictKeys d ↔ ∃ p, p ∈ d ∧ p.1 = k := by
  simp [dictKeys, List.mem_map]

theorem dictGet?_append (d1 d2 : Dict) (k : PyStr) :
    dictGet? (d1 ++ d2) k = ((d1.find? (fun p => p.1 = k)).or (d2.find? (fun p => p.1 = k))).map (·.2) := by
  simp [dictGet?, List.find?_append]

theorem dictGet?_append_of_not_mem {d1 : Dict} {k : PyStr} (h : k ∉ dictKeys d1) (d2 : Dict) :
    dictGet? (d1 ++ d2) k = dictGet? d2 k := by
  have hfind : d1.find? (fun p => p.1 = k) = none := by
    rw [List.find?_eq_none]
    intro p hp hcontra
    exact h (mem_dictKeys.mpr ⟨p, hp, by simpa using hcontra⟩)
  rw [dictGet?_append, hfind]
  rfl

theorem find?_eq_of_mem_nodup {d : Dict} {k : PyStr} {v : JVal}
    (hnd : (dictKeys d).Nodup) (hmem : (k, v) ∈ d) :
    d.find? (fun p => p.1 = k) = some (k, v) := by
  induction d with
  | nil => cases hmem
  | cons p d ih =>
    rw [dictKeys_cons, List.nodup_cons] at hnd
    rcases List.mem_cons.mp hmem with h | h
    · subst h
      simp [List.find?]
    · have hne : p.1 ≠ k := by
        intro hc
        exact hnd.1 (by rw [hc]; exact mem_dictKeys.mpr ⟨(k, v), h, rfl⟩)
      simp only [List.find?, hne, decide_eq_true_eq, if_neg]
      simpa [hne] using ih hnd.2 h

theorem dictGet?_eq_of_mem_nodup {d : Dict} {k : PyStr} {v : JVal}
    (hnd : (dictKeys d).Nodup) (hmem : (k, v) ∈ d) : dictGet? d k = some v := by
  simp [dictGet?, find?_eq_of_mem_nodup hnd hmem]

theorem dictSet_of_not_mem {d : Dict} {k : PyStr} (v : JVal) (h : k ∉ dictKeys d) :
    dictSet d k v = d ++ [(k, v)] := by
  unfold dictSet
  rw [if_neg]
  intro hc
  rw [List.any_eq_true] at hc
  obtain ⟨p, hp, hpk⟩ := hc
  exact h (mem_dictKeys.mpr ⟨p, hp, by simpa using hpk⟩)

theorem dictGet?_dictSet_ne {d : Dict} {k k' : PyStr} (v : JVal) (h : k ≠ k') :
    dictGet? (dictSet d k' v) k = dictGet? d k := by
  unfold dictSet
  by_cases hmem : d.any (fun p => p.1 = k') = true
  · rw [if_pos hmem]
    unfold dictGet?
    rw [find?_map_of_pred (fun p => if p.1 = k' then (k', v) else p) (fun p => p.1 = k)]
    · cases hfind : d.find? (fun p => p.1 = k) with
      | none => rfl
      | some p =>
        have hk : p.1 = k := by simpa using List.find?_some hfind
        have : ¬ p.1 = k' := by rw [hk]; exact h
        simp [this]
    · intro p
      by_cases hp : p.1 = k'
      · simp [hp, h.symm, Ne.symm h]
      · simp [hp]
  · rw [if_neg hmem, dictGet?_append]
    have h1 : ([((k', v))].find? (fun p => p.1 = k)) = none := by
      simp [List.find?, Ne.symm h]
    rw [h1]
    cases hfind : d.find? (fun p => p.1 = k) with
    | none => simp [dictGet?, hfind]
    | some p => simp [dictGet?, hfind]

theorem mem_keys_of_find?_eq_some {d : Dict} {k : PyStr} {p : PyStr × JVal}
    (h : d.find? (fun q => q.1 = k) = some p) : k ∈ dictKeys d := by
  have hmem := List.mem_of_find?_eq_some h
  have hk : p.1 = k := by simpa using List.find?_some h
  exact mem_dictKeys.mpr ⟨p, hmem, hk⟩

theorem dictGet?_dictSet_self (d : Dict) (k : PyStr) (v : JVal) :
    dictGet? (dictSet d k v) k = some v := by
  unfold dictSet
  by_cases hmem : d.any (fun p => p.1 = k) = true
  · rw [if_pos hmem]
    rw [List.any_eq_true] at hmem
    obtain ⟨p0, hp0, hp0k⟩ := hmem
    have hp0k' : p0.1 = k := by simpa using hp0k
    unfold dictGet?
    rw [find?_map_of_pred (fun p => if p.1 = k then (k, v) else p) (fun p => p.1 = k)]
    · cases hfind : d.find? (fun p => p.1 = k) with
      | none =>
        exfalso
        rw [List.find?_eq_none] at hfind
        exact hfind p0 hp0 (by simpa using hp0k')
      | some p =>
        have hk : p.1 = k := by simpa using List.find?_some hfind
        simp [hk]
    · intro p
      by_cases hp : p.1 = k <;> simp [hp]
  · rw [if_neg hmem]
    have hnk : k ∉ dictKeys d := by
      intro hc
      apply hmem
      rw [List.any_eq_true]
      obtain ⟨p, hp, hpk⟩ := mem_dictKeys.mp hc
      exact ⟨p, hp, by simp [hpk]⟩
    rw [dictGet?_append_of_not_mem hnk]
    simp [dictGet?, List.find?]

theorem dictKeys_dictSet_of_mem {d : Dict} {k : PyStr} (v : JVal) (h : k ∈ dictKeys d) :
    dictKeys (dictSet d k v) = dictKeys d := by
  unfold dictSet
  rw [if_pos]
  · unfold dictKeys
    rw [List.map_map]
    apply List.map_congr_left
    intro p _
    by_cases hp : p.1 = k <;> simp [hp]
  · rw [List.any_eq_true]
    obtain ⟨p, hp, hpk⟩ := mem_dictKeys.mp h
    exact ⟨p, hp, by simp [hpk]⟩

theorem dictKeys_dictSet_of_not_mem {d : Dict} {k : PyStr} (v : JVal) (h : k ∉ dictKeys d) :
    dictKeys (dictSet d k v) = dictKeys d ++ [k] := by
  rw [dictSet_of_not_mem v h]
  simp [dictKeys]

theorem nodup_dictKeys_dictSet {d : Dict} (k : PyStr) (v : JVal)
    (h : (dictKeys d).Nodup) : (dictKeys (dictSet d k v)).Nodup := by
  by_cases hk : k ∈ dictKeys d
  · rw [dictKeys_dictSet_of_mem v hk]; exact h
  · rw [dictKeys_dictSet_of_not_mem v hk]
    simp [List.nodup_append, h, hk]

theorem foldl_dictSet_fresh :
    ∀ (l : List (PyStr × JVal)) (d : Dict), (∀ k ∈ l.map Prod.fst, k ∉ dictKeys d) →
      (l.map Prod.fst).Nodup →
      l.foldl (fun d kv => dictSet d kv.1 kv.2) d = d ++ l := by
  intro l
  induction l with
  | nil => intro d _ _; simp
  | cons kv l ih =>
    intro d hfresh hnd
    simp only [List.map_cons, List.nodup_cons] at hnd
    simp only [List.foldl_cons]
    rw [dictSet_of_not_mem kv.2 (hfresh kv.1 (by simp))]
    have hfresh' : ∀ k ∈ l.map Prod.fst, k ∉ dictKeys (d ++ [(kv.1, kv.2)]) := by
      intro k hk
      simp only [dictKeys, List.map_append, List.mem_append]
      intro hc
      rcases hc with hc | hc
      · exact hfresh k (by simp [hk]) hc
      · simp only [List.map_cons, List.map_nil, List.mem_singleton] at hc
        exact hnd.1 (hc ▸ hk)
    rw [ih (d ++ [(kv.1, kv.2)]) hfresh' hnd.2]
    simp

theorem dictGet?_foldl_of_not_mem :
    ∀ (l : List (PyStr × JVal)) (d : Dict) (k : PyStr), k ∉ l.map Prod.fst →
      dictGet? (l.foldl (fun d kv => dictSet d kv.1 kv.2) d) k = dictGet? d k := by
  intro l
  induction l with
  | nil => intro d k _; rfl
  | cons kv l ih =>
    intro d k hk
    simp only [List.map_cons, List.mem_cons, not_or] at hk
    simp only [List.foldl_cons]
    rw [ih (dictSet d kv.1 kv.2) k hk.2, dictGet?_dictSet_ne kv.2 hk.1]

theorem dictGet?_foldl_of_mem :
    ∀ (l : List (PyStr × JVal)) (d : Dict) (k : PyStr) (v : JVal), (l.map Prod.fst).Nodup →
      (k, v) ∈ l → dictGet? (l.foldl (fun d kv => dictSet d kv.1 kv.2) d) k = some v := by
  intro l
  induction l with
  | nil => intro d k v _ hmem; cases hmem
  | cons kv l ih =>
    intro d k v hnd hmem
    obtain ⟨k0, v0⟩ := kv
    simp only [List.map_cons, List.nodup_cons] at hnd
    simp only [List.foldl_cons]
    rcases List.mem_cons.mp hmem with h | h
    · cases h
      rw [dictGet?_foldl_of_not_mem l _ k hnd.1]
      exact dictGet?_dictSet_self d k v
    · exact ih _ k v hnd.2 h

theorem nodup_dictKeys_foldl :
    ∀ (l : List (PyStr × JVal)) (d : Dict), (dictKeys d).Nodup →
      (dictKeys (l.foldl (fun d kv => dictSet d kv.1 kv.2) d)).Nodup := by
  intro l
  induction l with
  | nil => intro d h; exact h
  | cons kv l ih =>
    intro d h
    simp only [List.foldl_cons]
    exact ih (dictSet d kv.1 kv.2) (nodup_dictKeys_dictSet kv.1 kv.2 h)

theorem dictKeys_append (d1 d2 : Dict) : dictKeys (d1 ++ d2) = dictKeys d1 ++ dictKeys d2 := by
  simp [dictKeys]

theorem dictGet?_eq_none_of_not_mem {d : Dict} {k : PyStr} (h : k ∉ dictKeys d) :
    dictGet? d k = none := by
  unfold dictGet?
  rw [List.find?_eq_none.mpr]
  · rfl
  · intro p hp hc
    exact h (mem_dictKeys.mpr ⟨p, hp, by simpa using hc⟩)

theorem dictGet?_append_of_not_mem_right {d2 : Dict} {k : PyStr} (h : k ∉ dictKeys d2) (d1 : Dict) :
    dictGet? (d1 ++ d2) k = dictGet? d1 k := by
  have h2 : d2.find? (fun p => p.1 = k) = none := by
    rw [List.find?_eq_none]
    intro p hp hc
    exact h (mem_dictKeys.mpr ⟨p, hp, by simpa using hc⟩)
  rw [dictGet?_append, h2]
  cases hfind : d1.find? (fun p => p.1 = k) with
  | none => simp [dictGet?, hfind]
  | some p => simp [dictGet?, hfind]

theorem isSome_dictGet?_of_mem {d : Dict} {k : PyStr} (h : k ∈ dictKeys d) :
    (dictGet? d k).isSome = true := by
  obtain ⟨p, hp, hpk⟩ := mem_dictKeys.mp h
  unfold dictGet?
  cases hfind : List.find? (fun p => decide (p.1 = k)) d with
  | none =>
    exfalso
    rw [List.find?_eq_none] at hfind
    exact hfind p hp (by simpa using hpk)
  | some q => simp

theorem dictGet?_cons (p : PyStr × JVal) (d : Dict) (k : PyStr) :
    dictGet? (p :: d) k = if p.1 = k then some p.2 else dictGet? d k := by
  simp only [dictGet?, List.find?]
  by_cases h : p.1 = k <;> simp [h]

/-- Normal form of `log_entry` when no caller key collides with a reserved
field or with `extra`: the four mandatory fields, the optional `duration_sec`
and `extra` entries, then the keyword fields in call order. -/
theorem build_log_entry_nf (now : PyStr) (cs cr : Int) (a : LogArgs)
    (hnd : (a.extra_keys.map Prod.fst).Nodup)
    (hres : ∀ k ∈ a.extra_keys.map Prod.fst, k ∉ reservedKeys ++ [strLit "extra"]) :
    build_log_entry now cs cr a =
      ([(strLit "timestamp", JVal.jstr now), (strLit "step", JVal.jint (a.step.getD cs)),
        (strLit "worker", JVal.jint (a.workid.getD cr)), (strLit "event", JVal.jstr a.event)]
        ++ (match a.duration with
            | some dur => [(strLit "duration_sec", JVal.jnum dur)]
            | none => [])
        ++ (match a.extra with
            | some x => [(strLit "extra", JVal.jdict x)]
            | none => []))
      ++ a.extra_keys := by
  simp only [build_log_entry]
  rcases hd : a.duration with _ | dur <;> rcases hx : a.extra with _ | x <;> simp only [hd, hx]
  · have hfr : ∀ k ∈ a.extra_keys.map Prod.fst,
        k ∉ [strLit "timestamp", strLit "step", strLit "worker", strLit "event"] := by
      intro k hk hmem
      exact hres k hk
        ((show [strLit "timestamp", strLit "step", strLit "worker", strLit "event"]
            ⊆ reservedKeys ++ [strLit "extra"] by decide) hmem)
    rw [foldl_dictSet_fresh a.extra_keys
      [(strLit "timestamp", JVal.jstr now), (strLit "step", JVal.jint (a.step.getD cs)),
        (strLit "worker", JVal.jint (a.workid.getD cr)), (strLit "event", JVal.jstr a.event)]
      hfr hnd]
    rfl
  · have hfr : ∀ k ∈ a.extra_keys.map Prod.fst,
        k ∉ [strLit "timestamp", strLit "step", strLit "worker", strLit "event",
          strLit "extra"] := by
      intro k hk hmem
      exact hres k hk
        ((show [strLit "timestamp", strLit "step", strLit "worker", strLit "event",
            strLit "extra"] ⊆ reservedKeys ++ [strLit "extra"] by decide) hmem)
    rw [foldl_dictSet_fresh a.extra_keys
      (dictSet [(strLit "timestamp", JVal.jstr now), (strLit "step", JVal.jint (a.step.getD cs)),
        (strLit "worker", JVal.jint (a.workid.getD cr)), (strLit "event", JVal.jstr a.event)]
        (strLit "extra") (JVal.jdict x))
      hfr hnd]
    rfl
  · have hfr : ∀ k ∈ a.extra_keys.map Prod.fst,
        k ∉ [strLit "timestamp", strLit "step", strLit "worker", strLit "event",
          strLit "duration_sec"] := by
      intro k hk hmem
      exact hres k hk
        ((show [strLit "timestamp", strLit "step", strLit "worker", strLit "event",
            strLit "duration_sec"] ⊆ reservedKeys ++ [strLit "extra"] by decide) hmem)
    rw [foldl_dictSet_fresh a.extra_keys
      (dictSet [(strLit "timestamp", JVal.jstr now), (strLit "step", JVal.jint (a.step.getD cs)),
        (strLit "worker", JVal.jint (a.workid.getD cr)), (strLit "event", JVal.jstr a.event)]
        (strLit "duration_sec") (JVal.jnum dur))
      hfr hnd]
    rfl
  · have hfr : ∀ k ∈ a.extra_keys.map Prod.fst,
        k ∉ [strLit "timestamp", strLit "step", strLit "worker", strLit "event",
          strLit "duration_sec", strLit "extra"] := by
      intro k hk hmem
      exact hres k hk
        ((show [strLit "timestamp", strLit "step", strLit "worker", strLit "event",
            strLit "duration_sec", strLit "extra"] ⊆ reservedKeys ++ [strLit "extra"]
          by decide) hmem)
    rw [foldl_dictSet_fresh a.extra_keys
      (dictSet (dictSet [(strLit "timestamp", JVal.jstr now),
        (strLit "step", JVal.jint (a.step.getD cs)),
        (strLit "worker", JVal.jint (a.workid.getD cr)), (strLit "event", JVal.jstr a.event)]
        (strLit "duration_sec") (JVal.jnum dur))
        (strLit "extra") (JVal.jdict x))
      hfr hnd]
    rfl

theorem dictKeys_filterMap_keys (g : PyStr → Option JVal) :
    ∀ ks : List PyStr,
      dictKeys (ks.filterMap (fun k => (g k).map (fun v => (k, v)))) =
        ks.filter (fun k => (g k).isSome) := by
  intro ks
  induction ks with
  | nil => rfl
  | cons k ks ih =>
    simp only [List.filterMap_cons, List.filter_cons]
    cases hg : g k with
    | none => simpa [hg] using ih
    | some v => simpa [hg, dictKeys_cons] using ih

theorem dictGet?_filterMap_keys (g : PyStr → Option JVal) :
    ∀ ks : List PyStr, ks.Nodup → ∀ k : PyStr,
      dictGet? (ks.filterMap (fun k' => (g k').map (fun v => (k', v)))) k =
        if k ∈ ks then g k else none := by
  intro ks
  induction ks with
  | nil => intro _ k; simp [dictGet?]
  | cons k0 ks ih =>
    intro hnd k
    rw [List.nodup_cons] at hnd
    simp only [List.filterMap_cons]
    cases hg : g k0 with
    | none =>
      simp only [Option.map_none']
      rw [ih hnd.2 k]
      by_cases hk : k = k0
      · subst hk
        simp [hnd.1, hg]
      · simp [hk]
    | some v =>
      simp only [Option.map_some']
      rw [dictGet?_cons]
      by_cases hk : k = k0
      · subst hk
        simp [hg]
      · rw [if_neg (by simpa using Ne.symm hk), ih hnd.2 k]
        simp [hk]

theorem nodup_ordered_keys {e : Dict} (h : (dictKeys e).Nodup) : (ordered_keys e).Nodup := by
  unfold ordered_keys
  apply List.Nodup.append
  · decide
  · exact h.filter _
  · intro k hk1 hk2
    have := List.of_mem_filter hk2
    simp only [decide_eq_true_eq] at this
    exact this hk1

theorem dictGet?_ordered_entry {e : Dict} (h : (dictKeys e).Nodup) (k : PyStr) :
    dictGet? (ordered_entry e) k = if k ∈ ordered_keys e then dictGet? e k else none :=
  dictGet?_filterMap_keys (dictGet? e) (ordered_keys e) (nodup_ordered_keys h) k

theorem dictKeys_ordered_entry (e : Dict) :
    dictKeys (ordered_entry e) = (ordered_keys e).filter (fun k => (dictGet? e k).isSome) :=
  dictKeys_filterMap_keys (dictGet? e) (ordered_keys e)

theorem nodup_dictKeys_build_log_entry (now : PyStr) (cs cr : Int) (a : LogArgs) :
    (dictKeys (build_log_entry now cs cr a)).Nodup := by
  have base : (dictKeys [(strLit "timestamp", JVal.jstr now),
      (strLit "step", JVal.jint (a.step.getD cs)),
      (strLit "worker", JVal.jint (a.workid.getD cr)),
      (strLit "event", JVal.jstr a.event)]).Nodup := by
    rw [show dictKeys [(strLit "timestamp", JVal.jstr now),
      (strLit "step", JVal.jint (a.step.getD cs)),
      (strLit "worker", JVal.jint (a.workid.getD cr)),
      (strLit "event", JVal.jstr a.event)]
      = [strLit "timestamp", strLit "step", strLit "worker", strLit "event"] from rfl]
    decide
  simp only [build_log_entry]
  apply nodup_dictKeys_foldl
  rcases a.duration with _ | dur <;> rcases a.extra with _ | x
  · exact base
  · exact nodup_dictKeys_dictSet _ _ base
  · exact nodup_dictKeys_dictSet _ _ base
  · exact nodup_dictKeys_dictSet _ _ (nodup_dictKeys_dictSet _ _ base)

theorem mem_ordered_keys_of_reserved {e : Dict} {k : PyStr} (h : k ∈ reservedKeys) :
    k ∈ ordered_keys e := by
  unfold ordered_keys
  exact List.mem_append_left _ h

/-- Looking a key up in the reordered record agrees with looking it up in
`log_entry`, for any key the reordering keeps. -/
theorem lookup_logRecord (now : PyStr) (cs cr : Int) (a : LogArgs) {k : PyStr}
    (hk : k ∈ ordered_keys (build_log_entry now cs cr a)) :
    dictGet? (logRecord now cs cr a) k = dictGet? (build_log_entry now cs cr a) k := by
  unfold logRecord ordered_entry
  rw [dictGet?_filterMap_keys (dictGet? (build_log_entry now cs cr a)) _
    (nodup_ordered_keys (nodup_dictKeys_build_log_entry now cs cr a)) k, if_pos hk]

theorem dictKeys_eq_map_fst (d : Dict) : dictKeys d = d.map Prod.fst := rfl

/-- Keys of the reordered record for an entry of the shape
`reserved-or-extra part ++ fresh keyword part`. -/
theorem dictKeys_ordered_entry_core (c : Dict) (kw : List (PyStr × JVal))
    (hres : ∀ k ∈ kw.map Prod.fst, k ∉ reservedKeys ++ [strLit "extra"]) :
    dictKeys (ordered_entry (c ++ kw)) =
      reservedKeys.filter (fun k => (dictGet? c k).isSome)
      ++ (dictKeys c).filter (fun k => decide (k ∉ reservedKeys))
      ++ kw.map Prod.fst := by
  have hkw : dictKeys kw = kw.map Prod.fst := rfl
  have hdisj : ∀ k ∈ reservedKeys ++ [strLit "extra"], k ∉ dictKeys kw := by
    intro k hk hmem
    rw [hkw] at hmem
    exact hres k hmem hk
  rw [dictKeys_ordered_entry]
  unfold ordered_keys
  rw [dictKeys_append, List.filter_append, List.filter_append, List.filter_append]
  have hA : reservedKeys.filter (fun k => (dictGet? (c ++ kw) k).isSome)
      = reservedKeys.filter (fun k => (dictGet? c k).isSome) := by
    apply List.filter_congr
    intro k hk
    rw [dictGet?_append_of_not_mem_right (hdisj k (List.mem_append_left _ hk)) c]
  have hB : ((dictKeys c).filter (fun k => decide (k ∉ reservedKeys))).filter
      (fun k => (dictGet? (c ++ kw) k).isSome)
      = (dictKeys c).filter (fun k => decide (k ∉ reservedKeys)) := by
    apply List.filter_eq_self.mpr
    intro k hk
    have hkc : k ∈ dictKeys c := List.mem_of_mem_filter hk
    apply isSome_dictGet?_of_mem
    rw [dictKeys_append]
    exact List.mem_append_left _ hkc
  have hC1 : (dictKeys kw).filter (fun k => decide (k ∉ reservedKeys)) = dictKeys kw := by
    apply List.filter_eq_self.mpr
    intro k hk
    rw [hkw] at hk
    simp only [decide_eq_true_eq]
    intro hcontra
    exact hres k hk (List.mem_append_left _ hcontra)
  have hC2 : (dictKeys kw).filter (fun k => (dictGet? (c ++ kw) k).isSome) = dictKeys kw := by
    apply List.filter_eq_self.mpr
    intro k hk
    apply isSome_dictGet?_of_mem
    rw [dictKeys_append]
    exact List.mem_append_right _ hk
  rw [hA, hB, hC1, hC2, hkw, List.append_assoc]

/-- Claim C3: the emitted JSON object's field order is `timestamp`, `step`,
`worker`, `event`, then `duration_sec` when a duration was given, then the
remaining optional (`extra`) and caller-supplied fields in call order; the
order is determined by which fields are present and by the keyword-argument
order alone. -/
theorem log_field_order_main (now : PyStr) (cs cr : Int) (a : LogArgs)
    (hnd : (a.extra_keys.map Prod.fst).Nodup)
    (hres : ∀ k ∈ a.extra_keys.map Prod.fst, k ∉ reservedKeys ++ [strLit "extra"]) :
    dictKeys (logRecord now cs cr a) =
      [strLit "timestamp", strLit "step", strLit "worker", strLit "event"]
      ++ (if a.duration.isSome then [strLit "duration_sec"] else [])
      ++ (if a.extra.isSome then [strLit "extra"] else [])
      ++ a.extra_keys.map Prod.fst := by
  unfold logRecord
  rw [build_log_entry_nf now cs cr a hnd hres]
  rcases hd : a.duration with _ | dur <;> rcases hx : a.extra with _ | x <;>
    simp only [hd, hx] <;>
    rw [dictKeys_ordered_entry_core _ a.extra_keys hres] <;>
    rfl

theorem mem_dictKeys_of_isSome {d : Dict} {k : PyStr} (h : (dictGet? d k).isSome = true) :
    k ∈ dictKeys d := by
  unfold dictGet? at h
  cases hfind : List.find? (fun p => decide (p.1 = k)) d with
  | none => rw [hfind] at h; simp at h
  | some p => exact mem_keys_of_find?_eq_some hfind

theorem dictGet?_build_log_entry_kwarg (now : PyStr) (cs cr : Int) (a : LogArgs)
    {k : PyStr} {v : JVal} (hnd : (a.extra_keys.map Prod.fst).Nodup)
    (hmem : (k, v) ∈ a.extra_keys) :
    dictGet? (build_log_entry now cs cr a) k = some v := by
  simp only [build_log_entry]
  exact dictGet?_foldl_of_mem a.extra_keys _ k v hnd hmem

/-- Claim C4: the written line reproduces exactly the field values passed to
`log` — the event, the duration when given, the extra payload, and every
keyword field — contains a timestamp, and has `step` / `worker` equal to the
explicit arguments when given, else to the process-context step and rank. -/
theorem log_round_trip_main (now : PyStr) (cs cr : Int) (a : LogArgs)
    (hnd : (a.extra_keys.map Prod.fst).Nodup)
    (hres : ∀ k ∈ a.extra_keys.map Prod.fst, k ∉ reservedKeys ++ [strLit "extra"]) :
    dictGet? (logRecord now cs cr a) (strLit "timestamp") = some (JVal.jstr now) ∧
    dictGet? (logRecord now cs cr a) (strLit "event") = some (JVal.jstr a.event) ∧
    dictGet? (logRecord now cs cr a) (strLit "step") = some (JVal.jint (a.step.getD cs)) ∧
    dictGet? (logRecord now cs cr a) (strLit "worker") = some (JVal.jint (a.workid.getD cr)) ∧
    (∀ dur, a.duration = some dur →
      dictGet? (logRecord now cs cr a) (strLit "duration_sec") = some (JVal.jnum dur)) ∧
    (∀ x, a.extra = some x →
      dictGet? (logRecord now cs cr a) (strLit "extra") = some (JVal.jdict x)) ∧
    (∀ k v, (k, v) ∈ a.extra_keys → dictGet? (logRecord now cs cr a) k = some v) := by
  refine ⟨?_, ?_, ?_, ?_, ?_, ?_, ?_⟩
  · rw [lookup_logRecord now cs cr a (mem_ordered_keys_of_reserved (by decide)),
      build_log_entry_nf now cs cr a hnd hres]
    rcases a.duration with _ | dur <;> rcases a.extra with _ | x <;> rfl
  · rw [lookup_logRecord now cs cr a (mem_ordered_keys_of_reserved (by decide)),
      build_log_entry_nf now cs cr a hnd hres]
    rcases a.duration with _ | dur <;> rcases a.extra with _ | x <;> rfl
  · rw [lookup_logRecord now cs cr a (mem_ordered_keys_of_reserved (by decide)),
      build_log_entry_nf now cs cr a hnd hres]
    rcases a.duration with _ | dur <;> rcases a.extra with _ | x <;> rfl
  · rw [lookup_logRecord now cs cr a (mem_ordered_keys_of_reserved (by decide)),
      build_log_entry_nf now cs cr a hnd hres]
    rcases a.duration with _ | dur <;> rcases a.extra with _ | x <;> rfl
  · intro dur hdur
    rw [lookup_logRecord now cs cr a (mem_ordered_keys_of_reserved (by decide)),
      build_log_entry_nf now cs cr a hnd hres, hdur]
    rcases a.extra with _ | x <;> rfl
  · intro x hx
    have hkmem : strLit "extra" ∈ dictKeys (build_log_entry now cs cr a) := by
      rw [build_log_entry_nf now cs cr a hnd hres, hx]
      rcases a.duration with _ | dur <;> simp [dictKeys]
    have hko : strLit "extra" ∈ ordered_keys (build_log_entry now cs cr a) := by
      unfold ordered_keys
      apply List.mem_append_right
      exact List.mem_filter.mpr ⟨hkmem, by decide⟩
    rw [lookup_logRecord now cs cr a hko,
      build_log_entry_nf now cs cr a hnd hres, hx]
    rcases a.duration with _ | dur <;> rfl
  · intro k v hkv
    have hks : k ∈ a.extra_keys.map Prod.fst := List.mem_map_of_mem _ hkv
    have hkr := hres k hks
    have hentry : dictGet? (build_log_entry now cs cr a) k = some v :=
      dictGet?_build_log_entry_kwarg now cs cr a hnd hkv
    have hkmem : k ∈ dictKeys (build_log_entry now cs cr a) :=
      mem_dictKeys_of_isSome (by rw [hentry]; rfl)
    have hko : k ∈ ordered_keys (build_log_entry now cs cr a) := by
      unfold ordered_keys
      apply List.mem_append_right
      refine List.mem_filter.mpr ⟨hkmem, ?_⟩
      simp only [decide_eq_true_eq]
      intro hcontra
      exact hkr (List.mem_append_left _ hcontra)
    rw [lookup_logRecord now cs cr a hko, hentry]

/-- Claim C9: a caller keyword field named `timestamp`, `worker`, `event` or
`duration_sec` supplied through `**extra_keys` silently overwrites the
reserved field of that name: the emitted field holds the caller's value, not
the manager-computed one. -/
theorem log_reserved_overwrite_main (now : PyStr) (cs cr : Int) (a : LogArgs)
    (k : PyStr) (v : JVal)
    (hk4 : k = strLit "timestamp" ∨ k = strLit "worker" ∨ k = strLit "event" ∨
      k = strLit "duration_sec")
    (hnd : (a.extra_keys.map Prod.fst).Nodup)
    (hmem : (k, v) ∈ a.extra_keys) :
    dictGet? (logRecord now cs cr a) k = some v := by
  have hr : k ∈ reservedKeys := by
    rcases hk4 with h | h | h | h <;> (rw [h]; decide)
  rw [lookup_logRecord now cs cr a (mem_ordered_keys_of_reserved hr)]
  exact dictGet?_build_log_entry_kwarg now cs cr a hnd hmem

theorem foldl_osClose_eq (l : List (PyStr × Nat)) (os : OSState) :
    l.foldl (fun o q => osClose o q.2) os =
      { os with handles := os.handles.map (fun e =>
          if e.1 ∈ l.map Prod.snd then (e.1, ⟨e.2.hpath, false⟩) else e) } := by
  induction l generalizing os with
  | nil =>
    cases os
    simp [osClose]
  | cons q l ih =>
    simp only [List.foldl_cons]
    rw [ih (osClose os q.2)]
    cases os with
    | mk fs hs nh =>
      simp only [osClose, OSState.mk.injEq, List.map_map, true_and, and_true]
      apply List.map_congr_left
      intro e _
      by_cases h1 : e.1 = q.2
      · by_cases h2 : e.1 ∈ l.map Prod.snd <;>
          simp [h1, h2, Function.comp, List.mem_cons]
      · by_cases h2 : e.1 ∈ l.map Prod.snd <;>
          simp [h1, h2, Function.comp, List.mem_cons]

theorem close_all_handles (m : SGLangLogManager) (os : OSState) :
    (SGLangLogManager.close_all m os).2 =
      { os with handles := os.handles.map (fun e =>
          if e.1 ∈ m.file_handles.map Prod.snd then (e.1, ⟨e.2.hpath, false⟩) else e) } := by
  unfold SGLangLogManager.close_all
  exact foldl_osClose_eq m.file_handles os

theorem close_all_closes_cached (m : SGLangLogManager) (os : OSState) :
    ∀ q ∈ m.file_handles, ∀ e ∈ (SGLangLogManager.close_all m os).2.handles,
      e.1 = q.2 → e.2.isOpen = false := by
  intro q hq e he heq
  rw [close_all_handles] at he
  obtain ⟨e0, he0mem, he0⟩ := List.mem_map.mp he
  by_cases hmem : e0.1 ∈ m.file_handles.map Prod.snd
  · rw [if_pos hmem] at he0
    rw [← he0]
  · rw [if_neg hmem] at he0
    exfalso
    apply hmem
    rw [he0, heq]
    exact List.mem_map_of_mem _ hq

theorem close_all_idem (m : SGLangLogManager) (os : OSState) :
    SGLangLogManager.close_all (SGLangLogManager.close_all m os).1
      (SGLangLogManager.close_all m os).2 = SGLangLogManager.close_all m os := by
  have hfst : (SGLangLogManager.close_all m os).1 = m := rfl
  rw [hfst]
  have h2 := close_all_handles m (SGLangLogManager.close_all m os).2
  rw [Prod.ext_iff]
  refine ⟨rfl, ?_⟩
  rw [h2, close_all_handles m os]
  cases os with
  | mk fs hs nh =>
    simp only [OSState.mk.injEq, List.map_map, true_and, and_true]
    apply List.map_congr_left
    intro e _
    by_cases h1 : e.1 ∈ m.file_handles.map Prod.snd <;> simp [h1]

/-- Claim C10: after `close_all`, the cache still holds an entry for a
previously-logged path, and a later `log` call to that path retrieves the
closed cached handle from `get_handle` instead of reopening the file, so the
write raises instead of appending a line. -/
theorem log_after_close_all_main (m : SGLangLogManager) (os : OSState) (g : PyGlobals)
    (log_path now : PyStr) (a : LogArgs) (h : Nat) (hs : HState)
    (hcache : (m.file_handles.find? (fun q => q.1 = log_path)).map (·.2) = some h)
    (hhandle : os.handles.find? (fun e => e.1 = h) = some (h, hs)) :
    ((SGLangLogManager.close_all m os).1.file_handles.find?
        (fun q => q.1 = log_path)).map (·.2) = some h ∧
    SGLangLogManager.log (SGLangLogManager.close_all m os).1
      (SGLangLogManager.close_all m os).2 g log_path now a = Except.error () := by
  have hfst : (SGLangLogManager.close_all m os).1 = m := rfl
  rw [hfst]
  refine ⟨hcache, ?_⟩
  have hmemh : h ∈ m.file_handles.map Prod.snd := by
    cases hfind : m.file_handles.find? (fun q => q.1 = log_path) with
    | none => rw [hfind] at hcache; simp at hcache
    | some q =>
      rw [hfind] at hcache
      have hq2 : q.2 = h := by simpa using hcache
      rw [← hq2]
      exact List.mem_map_of_mem _ (List.mem_of_find?_eq_some hfind)
  have hclosed : (SGLangLogManager.close_all m os).2.handles.find? (fun e => e.1 = h)
      = some (h, ⟨hs.hpath, false⟩) := by
    rw [close_all_handles]
    rw [find?_map_of_pred (fun e => if e.1 ∈ m.file_handles.map Prod.snd
        then (e.1, ⟨e.2.hpath, false⟩) else e) (fun e => e.1 = h)
      (by intro e; by_cases hc : e.1 ∈ m.file_handles.map Prod.snd <;> simp [hc])
      os.handles]
    rw [hhandle]
    simp [hmemh]
  simp only [SGLangLogManager.log, SGLangLogManager.get_handle, hcache, osWrite, hclosed]
  rfl

theorem fileLines_writeRec (os : OSState) (p : PyStr) (rec : Dict)
    (hmem : p ∈ os.files.map Prod.fst) :
    fileLines (writeRec os p rec) p = fileLines os p ++ [rec] := by
  unfold fileLines writeRec
  rw [find?_map_of_pred (fun q => if q.1 = p then (q.1, q.2 ++ [rec]) else q)
    (fun q => q.1 = p)
    (by intro q; by_cases hq : q.1 = p <;> simp [hq]) os.files]
  cases hfind : os.files.find? (fun q => q.1 = p) with
  | none =>
    exfalso
    obtain ⟨q, hq, hq1⟩ := List.mem_map.mp hmem
    rw [List.find?_eq_none] at hfind
    exact hfind q hq (by simpa using hq1)
  | some q0 =>
    have hq0 : q0.1 = p := by simpa using List.find?_some hfind
    simp [hq0]

theorem keys_writeRec (os : OSState) (p : PyStr) (rec : Dict) :
    (writeRec os p rec).files.map Prod.fst = os.files.map Prod.fst := by
  unfold writeRec
  rw [List.map_map]
  apply List.map_congr_left
  intro q _
  by_cases hq : q.1 = p <;> simp [hq]

theorem fileLines_osOpen (os : OSState) (p : PyStr) :
    fileLines (osOpen os p).2 p = fileLines os p := by
  unfold osOpen fileLines
  by_cases hex : os.files.any (fun q => q.1 = p)
  · simp [hex]
  · simp only [hex, Bool.false_eq_true, if_false]
    rw [List.find?_append]
    cases hfind : os.files.find? (fun q => q.1 = p) with
    | none => simp [List.find?]
    | some q0 => simp

theorem mem_files_osOpen (os : OSState) (p : PyStr) :
    p ∈ (osOpen os p).2.files.map Prod.fst := by
  unfold osOpen
  by_cases hex : os.files.any (fun q => q.1 = p)
  · simp only [hex, if_true]
    rw [List.any_eq_true] at hex
    obtain ⟨q, hq, hq1⟩ := hex
    have hq1' : q.1 = p := by simpa using hq1
    rw [← hq1']
    exact List.mem_map_of_mem _ hq
  · simp [hex]

/-- A `log` call whose path is already cached with an open handle writes one
line and changes nothing else. -/
theorem log_cached_step (m : SGLangLogManager) (os : OSState) (g : PyGlobals)
    (log_path now : PyStr) (a : LogArgs) (h : Nat)
    (hcache : (m.file_handles.find? (fun q => q.1 = log_path)).map (·.2) = some h)
    (hh : os.handles.find? (fun e => e.1 = h) = some (h, ⟨log_path, true⟩)) :
    SGLangLogManager.log m os g log_path now a =
      Except.ok (m, writeRec os log_path (logRecord now g.current_step g.current_rank a)) := by
  simp only [SGLangLogManager.log, SGLangLogManager.get_handle, hcache, osWrite, hh]
  rfl

/-- Running a sequence of `log` calls from a state whose path is cached with
an open handle: no error, no new handle, one line appended per call. -/
theorem runLogs_cached (g : PyGlobals) (log_path : PyStr) :
    ∀ (calls : List (PyStr × LogArgs)) (m : SGLangLogManager) (os : OSState) (h : Nat),
      (m.file_handles.find? (fun q => q.1 = log_path)).map (·.2) = some h →
      os.handles.find? (fun e => e.1 = h) = some (h, ⟨log_path, true⟩) →
      log_path ∈ os.files.map Prod.fst →
      ∃ os' : OSState, runLogs g log_path calls m os = Except.ok (m, os') ∧
        os'.handles = os.handles ∧ os'.nextH = os.nextH ∧
        os'.files.map Prod.fst = os.files.map Prod.fst ∧
        fileLines os' log_path = fileLines os log_path ++
          calls.map (fun c => logRecord c.1 g.current_step g.current_rank c.2) := by
  intro calls
  induction calls with
  | nil =>
    intro m os h hcache hh hfile
    exact ⟨os, rfl, rfl, rfl, rfl, by simp⟩
  | cons c rest ih =>
    intro m os h hcache hh hfile
    have hstep := log_cached_step m os g log_path c.1 c.2 h hcache hh
    have hh1 : (writeRec os log_path (logRecord c.1 g.current_step g.current_rank c.2)).handles.find?
        (fun e => e.1 = h) = some (h, ⟨log_path, true⟩) := hh
    have hfile1 : log_path ∈
        (writeRec os log_path (logRecord c.1 g.current_step g.current_rank c.2)).files.map Prod.fst := by
      rw [keys_writeRec]
      exact hfile
    obtain ⟨os', hrun, hhand, hnext, hkeys, hlines⟩ :=
      ih m (writeRec os log_path (logRecord c.1 g.current_step g.current_rank c.2)) h
        hcache hh1 hfile1
    refine ⟨os', ?_, ?_, ?_, ?_, ?_⟩
    · simp only [runLogs, hstep]
      exact hrun
    · exact hhand
    · exact hnext
    · rw [hkeys]
      exact keys_writeRec os log_path _
    · rw [hlines, fileLines_writeRec os log_path _ hfile]
      simp [List.map_cons, List.append_assoc]

/-- A `log` call whose path is not cached opens one fresh handle, caches it,
and writes one line. -/
theorem log_first_call (m : SGLangLogManager) (os : OSState) (g : PyGlobals)
    (log_path now : PyStr) (a : LogArgs)
    (hcache : ∀ q ∈ m.file_handles, q.1 ≠ log_path)
    (hwf : ∀ e ∈ os.handles, e.1 < os.nextH) :
    SGLangLogManager.log m os g log_path now a =
      Except.ok (⟨m.file_handles ++ [(log_path, os.nextH)]⟩,
        writeRec (osOpen os log_path).2 log_path
          (logRecord now g.current_step g.current_rank a)) := by
  have hfind : m.file_handles.find? (fun q => q.1 = log_path) = none := by
    rw [List.find?_eq_none]
    intro q hq
    simpa using hcache q hq
  have hhfind : ((osOpen os log_path).2.handles).find? (fun e => e.1 = os.nextH)
      = some (os.nextH, ⟨log_path, true⟩) := by
    unfold osOpen
    dsimp only
    rw [List.find?_append]
    have h1 : os.handles.find? (fun e => e.1 = os.nextH) = none := by
      rw [List.find?_eq_none]
      intro e he
      have hlt := hwf e he
      simp only [decide_eq_true_eq]
      omega
    rw [h1]
    simp [List.find?]
  have hofst : (osOpen os log_path).1 = os.nextH := rfl
  simp only [SGLangLogManager.log, SGLangLogManager.get_handle, hfind, Option.map_none',
    osWrite, hofst, hhfind]
  rfl

/-- Claim C1: a nonempty sequence of `log` calls to one path on one manager
(with the path not yet cached) succeeds, leaves exactly one cache entry and
exactly one new OS handle for that path — open, created by the first call
only — and appends exactly one line per call to the target file. -/
theorem log_n_calls_main (m : SGLangLogManager) (os : OSState) (g : PyGlobals)
    (log_path : PyStr) (calls : List (PyStr × LogArgs))
    (hne : calls ≠ [])
    (hcache : ∀ q ∈ m.file_handles, q.1 ≠ log_path)
    (hwf : ∀ e ∈ os.handles, e.1 < os.nextH) :
    ∃ os' : OSState,
      runLogs g log_path calls m os =
        Except.ok (⟨m.file_handles ++ [(log_path, os.nextH)]⟩, os') ∧
      os'.handles = os.handles ++ [(os.nextH, ⟨log_path, true⟩)] ∧
      os'.nextH = os.nextH + 1 ∧
      fileLines os' log_path = fileLines os log_path ++
        calls.map (fun c => logRecord c.1 g.current_step g.current_rank c.2) ∧
      (fileLines os' log_path).length = (fileLines os log_path).length + calls.length := by
  cases calls with
  | nil => cases hne rfl
  | cons c rest =>
    have hstep := log_first_call m os g log_path c.1 c.2 hcache hwf
    have hfind : m.file_handles.find? (fun q => q.1 = log_path) = none := by
      rw [List.find?_eq_none]
      intro q hq
      simpa using hcache q hq
    have hcache1 : (((⟨m.file_handles ++ [(log_path, os.nextH)]⟩ :
        SGLangLogManager).file_handles.find? (fun q => q.1 = log_path)).map (·.2))
        = some os.nextH := by
      show ((m.file_handles ++ [(log_path, os.nextH)]).find?
        (fun q => q.1 = log_path)).map (·.2) = some os.nextH
      rw [List.find?_append, hfind]
      simp [List.find?]
    have hhfind : ((osOpen os log_path).2.handles).find? (fun e => e.1 = os.nextH)
        = some (os.nextH, ⟨log_path, true⟩) := by
      unfold osOpen
      dsimp only
      rw [List.find?_append]
      have h1 : os.handles.find? (fun e => e.1 = os.nextH) = none := by
        rw [List.find?_eq_none]
        intro e he
        have hlt := hwf e he
        simp only [decide_eq_true_eq]
        omega
      rw [h1]
      simp [List.find?]
    have hh1 : (writeRec (osOpen os log_path).2 log_path
        (logRecord c.1 g.current_step g.current_rank c.2)).handles.find?
        (fun e => e.1 = os.nextH) = some (os.nextH, ⟨log_path, true⟩) := hhfind
    have hfile1 : log_path ∈ (writeRec (osOpen os log_path).2 log_path
        (logRecord c.1 g.current_step g.current_rank c.2)).files.map Prod.fst := by
      rw [keys_writeRec]
      exact mem_files_osOpen os log_path
    obtain ⟨os', hrun, hhand, hnext, hkeys, hlines⟩ :=
      runLogs_cached g log_path rest ⟨m.file_handles ++ [(log_path, os.nextH)]⟩
        (writeRec (osOpen os log_path).2 log_path
          (logRecord c.1 g.current_step g.current_rank c.2))
        os.nextH hcache1 hh1 hfile1
    have hl4 : fileLines os' log_path = fileLines os log_path ++
        (c :: rest).map (fun c => logRecord c.1 g.current_step g.current_rank c.2) := by
      rw [hlines, fileLines_writeRec _ _ _ (mem_files_osOpen os log_path), fileLines_osOpen]
      simp
    refine ⟨os', ?_, ?_, ?_, hl4, ?_⟩
    · simp only [runLogs, hstep]
      exact hrun
    · rw [hhand]
      rfl
    · rw [hnext]
      rfl
    · rw [hl4]
      simp [List.length_append]
/-- Claim C5: for a fixed `log_dir`, distinct `(step, rank)` integer pairs
yield distinct paths — `build_profile_log_path` is injective over the pair. -/
theorem build_profile_log_path_injective (log_dir : PyStr) (s1 r1 s2 r2 : Int)
    (h : build_profile_log_path log_dir s1 r1 = build_profile_log_path log_dir s2 r2) :
    s1 = s2 ∧ r1 = r2 := by
  rw [build_profile_log_path_eq, build_profile_log_path_eq] at h
  have h1 := List.append_cancel_left h
  have h2 := List.append_cancel_left h1
  obtain ⟨hs, htail⟩ :=
    append_cons_eq_of_not_mem (slash_not_mem_intRepr s1) (slash_not_mem_intRepr s2) h2
  have h3 := List.append_cancel_left htail
  exact ⟨intRepr_injective hs, intRepr_injective (List.append_cancel_right h3)⟩

/-- Witness for C5: the hypothesis discharged at `log_dir = "logs"`,
`(step, rank) = (3, 1)` on both sides. -/
theorem build_profile_log_path_injective_witness : (3 : Int) = 3 ∧ (1 : Int) = 1 :=
  build_profile_log_path_injective (strLit "logs") 3 1 3 1 (by decide)

/-- Claim C6: `get_sglang_log_manager` returns the single process-wide
instance: a second call returns the same instance and leaves the state
unchanged, and the first call (from an unset slot) stores the new instance
and registers its `close_all` with `atexit`. -/
theorem get_sglang_log_manager_singleton (s : SingletonState) :
    (get_sglang_log_manager (get_sglang_log_manager s).2).1 = (get_sglang_log_manager s).1 ∧
    (get_sglang_log_manager (get_sglang_log_manager s).2).2 = (get_sglang_log_manager s).2 ∧
    (s.log_manager = none →
      (get_sglang_log_manager s).2.log_manager = some (get_sglang_log_manager s).1 ∧
      (get_sglang_log_manager s).2.atexit_regs
        = s.atexit_regs ++ [(get_sglang_log_manager s).1]) := by
  rcases hs : s.log_manager with _ | r <;> simp [get_sglang_log_manager, hs]

/-- Witness for C6 from the initial module state (no instance yet). -/
theorem get_sglang_log_manager_singleton_witness :
    (get_sglang_log_manager (get_sglang_log_manager ⟨none, 0, []⟩).2).1
      = (get_sglang_log_manager ⟨none, 0, []⟩).1 ∧
    (get_sglang_log_manager ⟨none, 0, []⟩).2.log_manager
      = some (get_sglang_log_manager ⟨none, 0, []⟩).1 ∧
    (get_sglang_log_manager ⟨none, 0, []⟩).2.atexit_regs
      = [] ++ [(get_sglang_log_manager ⟨none, 0, []⟩).1] := by
  have h := get_sglang_log_manager_singleton ⟨none, 0, []⟩
  exact ⟨h.1, (h.2.2 rfl).1, (h.2.2 rfl).2⟩

/-- Claim C7: with neither `SGLANG_PROFILE_LOG_ROOT` nor `EXPERIMENT_NAME`
set, `get_sglang_log_dir` returns `"logs/multiturn_log_dir"`. -/
theorem get_sglang_log_dir_default (env : Env)
    (h1 : env.sglang_profile_log_root = none) (h2 : env.experiment_name = none) :
    get_sglang_log_dir env = strLit "logs/multiturn_log_dir" := by
  obtain ⟨r, n⟩ := env
  have h1' : r = none := h1
  have h2' : n = none := h2
  subst h1'
  subst h2'
  decide

/-- Witness for C7 at the empty environment. -/
theorem get_sglang_log_dir_default_witness :
    get_sglang_log_dir ⟨none, none⟩ = strLit "logs/multiturn_log_dir" :=
  get_sglang_log_dir_default ⟨none, none⟩ rfl rfl

/-- Claim C8: `get_sglang_log_path` is pure and deterministic — it mutates no
module global, and a second call with the same `(step, rank, log_dir)`
arguments from the resulting state returns the identical string. -/
theorem get_sglang_log_path_pure (env : Env) (g : PyGlobals)
    (step rank : Option Int) (log_dir : Option PyStr)
    (hstep : 0 ≤ step.getD g.current_step) (hrank : 0 ≤ rank.getD g.current_rank) :
    (get_sglang_log_path_run env g step rank log_dir).2 = g ∧
    (get_sglang_log_path_run env (get_sglang_log_path_run env g step rank log_dir).2
        step rank log_dir).1
      = (get_sglang_log_path_run env g step rank log_dir).1 :=
  ⟨rfl, rfl⟩

/-- Witness for C8 at the empty environment, context `(0, 0)`, arguments
`step = 3`, `rank = 1`, no explicit directory. -/
theorem get_sglang_log_path_pure_witness :
    (get_sglang_log_path_run ⟨none, none⟩ ⟨0, 0⟩ (some 3) (some 1) none).2 = ⟨0, 0⟩ ∧
    (get_sglang_log_path_run ⟨none, none⟩
        (get_sglang_log_path_run ⟨none, none⟩ ⟨0, 0⟩ (some 3) (some 1) none).2
        (some 3) (some 1) none).1
      = (get_sglang_log_path_run ⟨none, none⟩ ⟨0, 0⟩ (some 3) (some 1) none).1 :=
  get_sglang_log_path_pure ⟨none, none⟩ ⟨0, 0⟩ (some 3) (some 1) none (by decide) (by decide)

/-- Counterexample to Claim C2 as stated: `close_all` does NOT empty the
cache — for a manager with one cached handle, `file_handles` afterwards still
holds that entry. -/
theorem close_all_keeps_cache_counterexample :
    (SGLangLogManager.close_all ⟨[(strLit "p", 0)]⟩
        ⟨[(strLit "p", [])], [(0, ⟨strLit "p", true⟩)], 1⟩).1.file_handles
        = [(strLit "p", 0)] ∧
    (SGLangLogManager.close_all ⟨[(strLit "p", 0)]⟩
        ⟨[(strLit "p", [])], [(0, ⟨strLit "p", true⟩)], 1⟩).1.file_handles ≠ [] := by
  decide

/-- Claim C2 (amended): `close_all` closes every handle in the cache and is
idempotent — a second call is a no-op and raises no error — but it does not
empty the cache: `file_handles` is left exactly as it was. -/
theorem close_all_amended (m : SGLangLogManager) (os : OSState) :
    (SGLangLogManager.close_all m os).1 = m ∧
    (∀ q ∈ m.file_handles, ∀ e ∈ (SGLangLogManager.close_all m os).2.handles,
      e.1 = q.2 → e.2.isOpen = false) ∧
    SGLangLogManager.close_all (SGLangLogManager.close_all m os).1
        (SGLangLogManager.close_all m os).2
      = SGLangLogManager.close_all m os :=
  ⟨rfl, close_all_closes_cached m os, close_all_idem m os⟩

/-- Witness for C2 (amended) on a one-entry cache with its handle open. -/
theorem close_all_amended_witness :
    (SGLangLogManager.close_all ⟨[(strLit "p", 0)]⟩
        ⟨[(strLit "p", [])], [(0, ⟨strLit "p", true⟩)], 1⟩).1 = ⟨[(strLit "p", 0)]⟩ ∧
    ((0 : Nat), (⟨strLit "p", false⟩ : HState)).2.isOpen = false ∧
    SGLangLogManager.close_all
        (SGLangLogManager.close_all ⟨[(strLit "p", 0)]⟩
          ⟨[(strLit "p", [])], [(0, ⟨strLit "p", true⟩)], 1⟩).1
        (SGLangLogManager.close_all ⟨[(strLit "p", 0)]⟩
          ⟨[(strLit "p", [])], [(0, ⟨strLit "p", true⟩)], 1⟩).2
      = SGLangLogManager.close_all ⟨[(strLit "p", 0)]⟩
          ⟨[(strLit "p", [])], [(0, ⟨strLit "p", true⟩)], 1⟩ := by
  have h := close_all_amended ⟨[(strLit "p", 0)]⟩
    ⟨[(strLit "p", [])], [(0, ⟨strLit "p", true⟩)], 1⟩
  refine ⟨h.1, ?_, h.2.2⟩
  exact h.2.1 (strLit "p", 0) (by decide) ((0 : Nat), (⟨strLit "p", false⟩ : HState))
    (by decide) rfl

/-- Witness for C1: two calls from a fresh manager and empty filesystem append
two lines with one handle. -/
theorem log_n_calls_main_witness :
    ∃ os' : OSState,
      runLogs ⟨3, 1⟩ (strLit "p")
          [(strLit "T1", scenarioArgs),
            (strLit "T2", ⟨strLit "turn_end", none, none, none, none, []⟩)]
          ⟨[]⟩ ⟨[], [], 0⟩ =
        Except.ok (⟨[(strLit "p", 0)]⟩, os') ∧
      os'.handles = [(0, ⟨strLit "p", true⟩)] ∧
      os'.nextH = 1 ∧
      fileLines os' (strLit "p") = fileLines ⟨[], [], 0⟩ (strLit "p") ++
        [(strLit "T1", scenarioArgs),
          (strLit "T2", (⟨strLit "turn_end", none, none, none, none, []⟩ : LogArgs))].map
          (fun c => logRecord c.1 3 1 c.2) ∧
      (fileLines os' (strLit "p")).length = (fileLines ⟨[], [], 0⟩ (strLit "p")).length + 2 :=
  log_n_calls_main ⟨[]⟩ ⟨[], [], 0⟩ ⟨3, 1⟩ (strLit "p")
    [(strLit "T1", scenarioArgs),
      (strLit "T2", ⟨strLit "turn_end", none, none, none, none, []⟩)]
    (by simp) (by simp) (by simp)

/-- Witness for C3 at the scenario call: keys come out as
`timestamp, step, worker, event, duration_sec, tool`. -/
theorem log_field_order_main_witness :
    dictKeys (logRecord (strLit "T") 3 1 scenarioArgs)
      = [strLit "timestamp", strLit "step", strLit "worker", strLit "event"]
        ++ [strLit "duration_sec"] ++ [] ++ [strLit "tool"] :=
  log_field_order_main (strLit "T") 3 1 scenarioArgs (by decide) (by decide)

/-- Witness for C4 at the spec scenario: context step 3 and rank 1 set through
the setters, `log(path, "turn_start", duration=0.5, tool="search")`. -/
theorem log_round_trip_main_witness :
    dictGet? (logRecord (strLit "T")
        (set_sglang_rollout_rank (set_sglang_rollout_step ⟨0, 0⟩ 3) 1).current_step
        (set_sglang_rollout_rank (set_sglang_rollout_step ⟨0, 0⟩ 3) 1).current_rank
        scenarioArgs) (strLit "event") = some (JVal.jstr (strLit "turn_start")) ∧
    dictGet? (logRecord (strLit "T") 3 1 scenarioArgs) (strLit "duration_sec")
      = some (JVal.jnum (1/2)) ∧
    dictGet? (logRecord (strLit "T") 3 1 scenarioArgs) (strLit "tool")
      = some (JVal.jstr (strLit "search")) ∧
    dictGet? (logRecord (strLit "T") 3 1 scenarioArgs) (strLit "step")
      = some (JVal.jint 3) ∧
    dictGet? (logRecord (strLit "T") 3 1 scenarioArgs) (strLit "worker")
      = some (JVal.jint 1) ∧
    dictGet? (logRecord (strLit "T") 3 1 scenarioArgs) (strLit "timestamp")
      = some (JVal.jstr (strLit "T")) := by
  have h := log_round_trip_main (strLit "T") 3 1 scenarioArgs (by decide) (by decide)
  exact ⟨h.2.1, h.2.2.2.2.1 (1/2) rfl,
    h.2.2.2.2.2.2 (strLit "tool") (JVal.jstr (strLit "search")) (List.mem_singleton.mpr rfl),
    h.2.2.1, h.2.2.2.1, h.1⟩

/-- Witness for C9: a caller-supplied `worker=7` keyword overwrites the
manager-computed worker field. -/
theorem log_reserved_overwrite_main_witness :
    dictGet? (logRecord (strLit "T") 3 1
        ⟨strLit "e", none, none, none, none, [(strLit "worker", JVal.jint 7)]⟩)
      (strLit "worker") = some (JVal.jint 7) :=
  log_reserved_overwrite_main (strLit "T") 3 1
    ⟨strLit "e", none, none, none, none, [(strLit "worker", JVal.jint 7)]⟩
    (strLit "worker") (JVal.jint 7) (Or.inr (Or.inl rfl)) (by decide)
    (List.mem_singleton.mpr rfl)

/-- Witness for C10: after `close_all`, logging to the previously-logged path
finds the closed cached handle and errors. -/
theorem log_after_close_all_main_witness :
    ((SGLangLogManager.close_all ⟨[(strLit "p", 0)]⟩
        ⟨[(strLit "p", [])], [(0, ⟨strLit "p", true⟩)], 1⟩).1.file_handles.find?
        (fun q => q.1 = strLit "p")).map (·.2) = some 0 ∧
    SGLangLogManager.log
        (SGLangLogManager.close_all ⟨[(strLit "p", 0)]⟩
          ⟨[(strLit "p", [])], [(0, ⟨strLit "p", true⟩)], 1⟩).1
        (SGLangLogManager.close_all ⟨[(strLit "p", 0)]⟩
          ⟨[(strLit "p", [])], [(0, ⟨strLit "p", true⟩)], 1⟩).2
        ⟨0, 0⟩ (strLit "p") (strLit "T")
        ⟨strLit "e", none, none, none, none, []⟩ = Except.error () :=
  log_after_close_all_main ⟨[(strLit "p", 0)]⟩
    ⟨[(strLit "p", [])], [(0, ⟨strLit "p", true⟩)], 1⟩ ⟨0, 0⟩
    (strLit "p") (strLit "T") ⟨strLit "e", none, none, none, none, []⟩
    0 ⟨strLit "p", true⟩ (by decide) (by decide)
